import Mathlib

/-!
Shallow embedding of `src/cycler.ts` (class `Cycler` of the ng-cycler package)
and proofs about its destructor-queue behaviour.

Modelling conventions:

* A `Destructor` (a JS function value) is identified by a natural number.
  Reference equality of JS function values becomes equality of identifiers.
  The *behaviour* of a user-supplied destructor is given by an `Env`:
  invoking user destructor `a` first records the invocation in the event log,
  then calls `release` on each handle in `Env.releases a` (this is how a
  cleanup action can itself perform registry operations reentrantly), and
  finally throws iff `Env.throws a = true`.
* The closures freshly allocated by `manageDisposable` / `manageSubscription`
  (`() => disposable.dispose()`, `() => subscription.unsubscribe()`) get a
  fresh identifier drawn from a counter `nextId`; invoking them records a
  `dispose` / `unsubscribe` event for the wrapped object and does nothing else.
* JS exceptions are modelled by the `Out.thrown` result: state mutations that
  happened before the throw are kept, statements after the throwing call are
  skipped, exactly as in the source.
* All invoking functions take a fuel parameter because a cleanup action that
  releases its own handle loops forever in the JS source; `Out.fuelOut` marks
  fuel exhaustion and is never identified with a genuine result.
-/

namespace NgCycler

/-- Observable events: a user destructor was called, an object's `dispose`
method was called, or an object's `unsubscribe` method was called. -/
inductive Ev : Type
  | call (a : Nat)
  | dispose (o : Nat)
  | unsubscribe (o : Nat)
deriving DecidableEq, Repr

/-- One element of the `_destructors` array: either a user-supplied destructor
function (identified by `a`), or a wrapper closure freshly created by
`manageDisposable` (`disp n o`: wrapper id `n`, wrapped object `o`) or by
`manageSubscription` (`unsub n o`). -/
inductive Entry : Type
  | plain (a : Nat)
  | disp (n o : Nat)
  | unsub (n o : Nat)
deriving DecidableEq, Repr

/-- The JS function identity of an entry: user functions live on the left,
freshly allocated wrapper closures on the right.  `indexOf` in the source
compares these identities. -/
def Entry.fnId : Entry → Sum Nat Nat
  | .plain a => .inl a
  | .disp n _ => .inr n
  | .unsub n _ => .inr n

/-- The event recorded when an entry's destructor function runs. -/
def Entry.ev : Entry → Ev
  | .plain a => .call a
  | .disp _ o => .dispose o
  | .unsub _ o => .unsubscribe o

/-- State of one `Cycler` instance.

* `destructors` is the `_destructors` array (registration order).
* `transients` is the `_transientDestructors` record: an association list from
  slot code to the `Disposable` handle stored there; a handle is the entry it
  captured, since its `dispose` just releases that entry.
* `nextId` is the allocator for fresh wrapper-closure identities.
* `log` is the history of observable events, oldest first. -/
structure Cycler : Type where
  destructors : List Entry
  transients : List (String × Entry)
  nextId : Nat
  log : List Ev
deriving DecidableEq, Repr

/-- A freshly constructed `Cycler`: both fields empty. -/
def Cycler.empty : Cycler := ⟨[], [], 0, []⟩

/-- `getDestructorsCount` of the source: length of the `_destructors` array. -/
def getDestructorsCount (c : Cycler) : Nat := c.destructors.length

/-- Behaviour of the user-supplied destructor functions: `releases a` is the
list of handles whose `dispose` the body of destructor `a` calls, and
`throws a` tells whether the body ends by raising an exception. -/
structure Env : Type where
  releases : Nat → List Entry
  throws : Nat → Bool

/-- An environment whose destructors neither touch the registry nor throw:
plain cleanup actions. -/
def pureEnv (E : Env) : Prop := ∀ a, E.releases a = [] ∧ E.throws a = false

/-- An environment whose destructors never perform reentrant releases
(they may still throw). -/
def noReentry (E : Env) : Prop := ∀ a, E.releases a = []

/-- Whether invoking this entry raises: only a user destructor entry can
throw, wrapper closures are modelled as non-throwing. -/
def Entry.doesThrow (E : Env) : Entry → Bool
  | .plain a => E.throws a
  | .disp _ _ => false
  | .unsub _ _ => false

/-- Result of running a piece of code: normal result with the new state,
an exception propagating with the state at throw time, or out of fuel. -/
inductive Out (α : Type) : Type
  | ok (c : Cycler) (a : α)
  | thrown (c : Cycler)
  | fuelOut
deriving DecidableEq, Repr

mutual

/-- Running one destructor function (`destructor()` in the source).
A user destructor logs its call, then releases the handles its body names,
then possibly throws.  A wrapper closure logs the `dispose` / `unsubscribe`
of its wrapped object. -/
def runEntry (E : Env) (fuel : Nat) (e : Entry) (c : Cycler) : Out Unit :=
  match fuel, e with
  | 0, _ => Out.fuelOut
  | f + 1, .plain a =>
      match releaseList E f (E.releases a) { c with log := c.log ++ [Ev.call a] } with
      | Out.ok c2 _ => if E.throws a then Out.thrown c2 else Out.ok c2 ()
      | Out.thrown c2 => Out.thrown c2
      | Out.fuelOut => Out.fuelOut
  | _ + 1, .disp _ o => Out.ok { c with log := c.log ++ [Ev.dispose o] } ()
  | _ + 1, .unsub _ o => Out.ok { c with log := c.log ++ [Ev.unsubscribe o] } ()
termination_by structural fuel

/-- Releasing a list of handles one after the other; an exception from one
release aborts the rest, as in straight-line JS code. -/
def releaseList (E : Env) (fuel : Nat) (hs : List Entry) (c : Cycler) : Out Unit :=
  match fuel, hs with
  | _, [] => Out.ok c ()
  | 0, _ :: _ => Out.fuelOut
  | f + 1, h :: t =>
      match release E f h c with
      | Out.ok c1 _ => releaseList E f t c1
      | Out.thrown c1 => Out.thrown c1
      | Out.fuelOut => Out.fuelOut
termination_by structural fuel

/-- The `dispose` method of the `Disposable` returned by `manageDestructor`:

```
const destructorIndex = this._destructors.indexOf(destructor);
if (destructorIndex >= 0) {
    destructor();
    this._destructors.splice(destructorIndex, 1);
}
```

The index is computed before the call, the captured function itself is
invoked, and the splice uses the previously computed index on the array as
it stands after the call; an exception from `destructor()` skips the splice. -/
def release (E : Env) (fuel : Nat) (h : Entry) (c : Cycler) : Out Unit :=
  match fuel with
  | 0 => Out.fuelOut
  | f + 1 =>
      match List.findIdx? (fun e => e.fnId = h.fnId) c.destructors with
      | some i =>
          match runEntry E f h c with
          | Out.ok c1 _ => Out.ok { c1 with destructors := c1.destructors.eraseIdx i } ()
          | Out.thrown c1 => Out.thrown c1
          | Out.fuelOut => Out.fuelOut
      | none => Out.ok c ()
termination_by structural fuel

end

/-- The loop body of `Cycler.dispose`:
`for (let i = 0; i < this._destructors.length; i++) { this._destructors[i](); }`.
The bound and the element are read from the live array on every iteration. -/
def disposeLoop (E : Env) (fuel : Nat) (i : Nat) (c : Cycler) : Out Unit :=
  match fuel with
  | 0 => Out.fuelOut
  | f + 1 =>
      if hlt : i < c.destructors.length then
        match runEntry E f (c.destructors.get ⟨i, hlt⟩) c with
        | Out.ok c1 _ => disposeLoop E f (i + 1) c1
        | Out.thrown c1 => Out.thrown c1
        | Out.fuelOut => Out.fuelOut
      else Out.ok c ()

/-- `Cycler.dispose`: run every destructor currently in the queue by index,
then clear the queue.  The clearing assignment `this._destructors = []` is
skipped when an exception propagates out of the loop. -/
def dispose (E : Env) (fuel : Nat) (c : Cycler) : Out Unit :=
  match disposeLoop E fuel 0 c with
  | Out.ok c1 _ => Out.ok { c1 with destructors := [] } ()
  | Out.thrown c1 => Out.thrown c1
  | Out.fuelOut => Out.fuelOut

/-- `Cycler.ngOnDestroy` just calls `dispose`. -/
def ngOnDestroy (E : Env) (fuel : Nat) (c : Cycler) : Out Unit := dispose E fuel c

/-- `Cycler.manageDestructor`: push the destructor onto the queue and return
the disposable handle capturing it. -/
def manageDestructor (c : Cycler) (a : Nat) : Cycler × Entry :=
  ({ c with destructors := c.destructors ++ [Entry.plain a] }, Entry.plain a)

/-- `Cycler.manageDisposable`: delegate to `manageDestructor` with the
freshly allocated closure `() => disposable.dispose()`. -/
def manageDisposable (c : Cycler) (o : Nat) : Cycler × Entry :=
  ({ c with destructors := c.destructors ++ [Entry.disp c.nextId o],
            nextId := c.nextId + 1 },
   Entry.disp c.nextId o)

/-- `Cycler.manageSubscription`: delegate to `manageDestructor` with the
freshly allocated closure `() => subscription.unsubscribe()`. -/
def manageSubscription (c : Cycler) (o : Nat) : Cycler × Entry :=
  ({ c with destructors := c.destructors ++ [Entry.unsub c.nextId o],
            nextId := c.nextId + 1 },
   Entry.unsub c.nextId o)

/-- A dependency value passed to `manage`: its identity `id`, and whether the
value structurally exposes a `dispose` member / an `unsubscribe` member.
A bare callable has both flags false. -/
structure Dep : Type where
  id : Nat
  hasDispose : Bool
  hasUnsubscribe : Bool
deriving DecidableEq, Repr

/-- `Cycler.manage`: structural capability probing in source order — the
`dispose` member is checked first, then `unsubscribe`, and otherwise the
dependency is registered as a plain destructor. -/
def manage (c : Cycler) (d : Dep) : Cycler × Entry :=
  if d.hasDispose then manageDisposable c d.id
  else if d.hasUnsubscribe then manageSubscription c d.id
  else manageDestructor c d.id

/-- `Cycler.manageAll`: `manage` each dependency in order, discarding the
returned handles. -/
def manageAll (c : Cycler) (ds : List Dep) : Cycler :=
  ds.foldl (fun c d => (manage c d).1) c

/-- Lookup in the `_transientDestructors` record. -/
def lookupSlot (ts : List (String × Entry)) (code : String) : Option Entry :=
  match ts.find? (fun p => p.1 = code) with
  | some p => some p.2
  | none => none

/-- Assignment `this._transientDestructors[code] = result`: overwrite the
binding for `code` if present, otherwise add it. -/
def setSlot (ts : List (String × Entry)) (code : String) (e : Entry) :
    List (String × Entry) :=
  match ts with
  | [] => [(code, e)]
  | (c0, e0) :: t =>
      if c0 = code then (code, e) :: t else (c0, e0) :: setSlot t code e

/-- `Cycler.manageTransient`: if the slot already holds a disposable, call its
`dispose` (which releases the captured entry); then `manage` the new
dependency and store its handle in the slot. -/
def manageTransient (E : Env) (fuel : Nat) (c : Cycler) (code : String)
    (d : Dep) : Out Entry :=
  match lookupSlot c.transients code with
  | some h =>
      match release E fuel h c with
      | Out.ok c1 _ =>
          let r := manage c1 d
          Out.ok { r.1 with transients := setSlot r.1.transients code r.2 } r.2
      | Out.thrown c1 => Out.thrown c1
      | Out.fuelOut => Out.fuelOut
  | none =>
      let r := manage c d
      Out.ok { r.1 with transients := setSlot r.1.transients code r.2 } r.2

/-- `Cycler.managedSubscribe` for a stream whose subscription is `subId`:

```
let disposable = null;
const subscription = observable.pipe(finalize(() => {
    if (disposable !== null) { disposable.dispose(); } })).subscribe(next);
disposable = this.manageSubscription(subscription);
return disposable;
```

`syncTerm = true` models a stream that completes or errors synchronously
inside the `subscribe` call: the `finalize` callback then runs while
`disposable` is still `null` and does nothing, and no completion hook remains
armed afterwards.  `syncTerm = false` models a stream that outlives the call:
the callback stays armed and, when the stream later terminates, it calls
`disposable.dispose()`, i.e. releases the returned handle.  The third
component is that still-armed hook (`none` when the stream already
terminated). -/
def managedSubscribe (c : Cycler) (subId : Nat) (syncTerm : Bool) :
    Cycler × Entry × Option Entry :=
  let r := manageSubscription c subId
  (r.1, r.2, if syncTerm then none else some r.2)

/-! ### List helpers -/

/-- Multiplicity of an element in a list, via `countP` so that the `countP`
lemma family applies uniformly. -/
def cnt {α : Type} [DecidableEq α] (x : α) (l : List α) : Nat :=
  l.countP (fun y => y = x)

theorem cnt_append {α : Type} [DecidableEq α] (x : α) (l1 l2 : List α) :
    cnt x (l1 ++ l2) = cnt x l1 + cnt x l2 := by
  simp [cnt]

theorem countP_eraseIdx {α : Type} (p : α → Bool) (l : List α) (i : Nat)
    (h : i < l.length) :
    l.countP p = (l.eraseIdx i).countP p +
      (if p (l.get ⟨i, h⟩) then 1 else 0) := by
  have hsplit : l = l.take i ++ l[i] :: l.drop (i + 1) := by
    conv_lhs => rw [← List.take_append_drop i l]
    rw [List.drop_eq_getElem_cons h]
  rw [List.eraseIdx_eq_take_drop_succ]
  conv_lhs => rw [hsplit]
  simp only [List.countP_append, List.countP_cons, List.get_eq_getElem]
  by_cases hx : p l[i] <;> simp [hx] <;> omega

theorem cnt_eraseIdx {α : Type} [DecidableEq α] (x : α) (l : List α) (i : Nat)
    (h : i < l.length) :
    cnt x l = cnt x (l.eraseIdx i) + (if l.get ⟨i, h⟩ = x then 1 else 0) := by
  have := countP_eraseIdx (fun y => decide (y = x)) l i h
  simpa [cnt] using this

theorem cnt_eq_one_of_nodup_mem {α : Type} [DecidableEq α] {l : List α}
    (hn : l.Nodup) {x : α} (hx : x ∈ l) : cnt x l = 1 := by
  induction l with
  | nil => cases hx
  | cons y t ih =>
      rcases List.nodup_cons.mp hn with ⟨hy, ht⟩
      rcases List.mem_cons.mp hx with rfl | hxt
      · have h0 : cnt x t = 0 := by
          simp only [cnt, List.countP_eq_zero, decide_eq_true_eq]
          intro b hb hbe
          subst hbe
          exact hy hb
        simp only [cnt, List.countP_cons] at h0 ⊢
        simp [h0]
      · have hyx : ¬(y = x) := fun hh => hy (hh ▸ hxt)
        simp [cnt, List.countP_cons, hyx]
        simpa [cnt] using ih ht hxt

theorem eraseIdx_append_singleton {α : Type} :
    ∀ (l : List α) (y : α), (l ++ [y]).eraseIdx l.length = l
  | [], y => rfl
  | x :: t, y => by
      simpa [List.eraseIdx] using eraseIdx_append_singleton t y

/-! ### Behaviour under a pure environment

A "pure" environment is one whose user destructors are plain cleanup actions:
they perform no reentrant registry operations and do not throw.  Under such an
environment all the invoking operations admit closed-form descriptions. -/

/-- The state produced by a successful `release h`: if an entry with the
handle's function identity is in the queue, the handle's destructor runs
(appending its event) and the found index is spliced out; otherwise nothing
happens.  This is a derived description used to state lemmas, not part of the
embedding itself. -/
def releaseResult (h : Entry) (c : Cycler) : Cycler :=
  match List.findIdx? (fun e => e.fnId = h.fnId) c.destructors with
  | some i => { c with destructors := c.destructors.eraseIdx i,
                       log := c.log ++ [h.ev] }
  | none => c

theorem runEntry_pure {E : Env} (hE : pureEnv E) (f : Nat) (e : Entry)
    (c : Cycler) :
    runEntry E (f + 1) e c = Out.ok { c with log := c.log ++ [e.ev] } () := by
  cases e with
  | plain a => simp [runEntry, releaseList, (hE a).1, (hE a).2, Entry.ev]
  | disp n o => simp [runEntry, Entry.ev]
  | unsub n o => simp [runEntry, Entry.ev]

theorem runEntry_ok_pure {E : Env} (hE : pureEnv E) {f : Nat} {e : Entry}
    {c c' : Cycler} {u : Unit} (hr : runEntry E f e c = Out.ok c' u) :
    c' = { c with log := c.log ++ [e.ev] } := by
  cases f with
  | zero => simp [runEntry] at hr
  | succ f =>
      rw [runEntry_pure hE] at hr
      injection hr with h1 _
      exact h1.symm

theorem release_pure {E : Env} (hE : pureEnv E) (f : Nat) (h : Entry)
    (c : Cycler) :
    release E (f + 2) h c = Out.ok (releaseResult h c) () := by
  cases hidx : List.findIdx? (fun e => e.fnId = h.fnId) c.destructors with
  | some i => simp [release, hidx, runEntry_pure hE, releaseResult]
  | none => simp [release, hidx, releaseResult]

theorem release_ok_pure {E : Env} (hE : pureEnv E) {f : Nat} {h : Entry}
    {c c' : Cycler} {u : Unit} (hr : release E f h c = Out.ok c' u) :
    c' = releaseResult h c := by
  match f with
  | 0 => simp [release] at hr
  | 1 =>
      cases hidx : List.findIdx? (fun e => e.fnId = h.fnId) c.destructors with
      | some i => simp [release, hidx, runEntry] at hr
      | none =>
          simp only [release, hidx] at hr
          injection hr with h1 _
          rw [releaseResult, hidx]
          exact h1.symm
  | f + 2 =>
      rw [release_pure hE] at hr
      injection hr with h1 _
      exact h1.symm

theorem disposeLoop_pure {E : Env} (hE : pureEnv E) :
    ∀ (f i : Nat) (c : Cycler), c.destructors.length - i + 1 ≤ f →
      disposeLoop E f i c =
        Out.ok { c with log := c.log ++ (c.destructors.drop i).map Entry.ev }
          () := by
  intro f
  induction f with
  | zero => intro i c hf; omega
  | succ f ih =>
      intro i c hf
      by_cases hlt : i < c.destructors.length
      · have hdrop := List.drop_eq_getElem_cons (l := c.destructors) hlt
        obtain ⟨g, rfl⟩ : ∃ g, f = g + 1 := ⟨f - 1, by omega⟩
        rw [disposeLoop, dif_pos hlt, runEntry_pure hE]
        show disposeLoop E (g + 1) (i + 1)
            { c with log := c.log ++ [(c.destructors.get ⟨i, hlt⟩).ev] } = _
        rw [ih (i + 1) { c with
              log := c.log ++ [(c.destructors.get ⟨i, hlt⟩).ev] }
            (by show c.destructors.length - (i + 1) + 1 ≤ g + 1; omega)]
        dsimp only
        rw [hdrop]
        simp only [List.map_cons, List.get_eq_getElem, List.append_assoc,
          List.singleton_append]
      · rw [disposeLoop, dif_neg hlt]
        rw [List.drop_eq_nil_of_le (by omega)]
        simp

theorem disposeLoop_ok_pure {E : Env} (hE : pureEnv E) :
    ∀ {f i : Nat} {c c' : Cycler} {u : Unit},
      disposeLoop E f i c = Out.ok c' u →
      c' = { c with log := c.log ++ (c.destructors.drop i).map Entry.ev } := by
  intro f
  induction f with
  | zero => intro i c c' u hr; simp [disposeLoop] at hr
  | succ f ih =>
      intro i c c' u hr
      by_cases hlt : i < c.destructors.length
      · rw [disposeLoop, dif_pos hlt] at hr
        cases hre : runEntry E f (c.destructors.get ⟨i, hlt⟩) c with
        | ok c1 u1 =>
            rw [hre] at hr
            have hc1 := runEntry_ok_pure hE hre
            subst hc1
            have := ih hr
            subst this
            have hdrop := List.drop_eq_getElem_cons (l := c.destructors) hlt
            dsimp only
            rw [hdrop]
            simp only [List.map_cons, List.get_eq_getElem, List.append_assoc,
              List.singleton_append]
        | thrown c1 => rw [hre] at hr; simp at hr
        | fuelOut => rw [hre] at hr; simp at hr
      · rw [disposeLoop, dif_neg hlt] at hr
        injection hr with h1 _
        rw [List.drop_eq_nil_of_le (by omega)]
        simp [← h1]

theorem dispose_pure {E : Env} (hE : pureEnv E) (f : Nat) (c : Cycler)
    (hf : c.destructors.length + 1 ≤ f) :
    dispose E f c =
      Out.ok { c with destructors := [],
                      log := c.log ++ c.destructors.map Entry.ev } () := by
  rw [dispose, disposeLoop_pure hE f 0 c (by omega)]
  rfl

theorem dispose_ok_pure {E : Env} (hE : pureEnv E) {f : Nat} {c c' : Cycler}
    {u : Unit} (hr : dispose E f c = Out.ok c' u) :
    c' = { c with destructors := [],
                  log := c.log ++ c.destructors.map Entry.ev } := by
  rw [dispose] at hr
  cases hdl : disposeLoop E f 0 c with
  | ok c1 u1 =>
      rw [hdl] at hr
      injection hr with h1 _
      have := disposeLoop_ok_pure hE hdl
      subst this
      simp [← h1]
  | thrown c1 => rw [hdl] at hr; simp at hr
  | fuelOut => rw [hdl] at hr; simp at hr

/-! ### Shared concrete material -/

/-- An environment whose user destructors are all no-ops: the plainest
cleanup actions. -/
def idleEnv : Env := ⟨fun _ => [], fun _ => false⟩

theorem idleEnv_pure : pureEnv idleEnv := fun _ => ⟨rfl, rfl⟩

/-- A sequence of `manageDestructor` registrations, in order. -/
def regAll (c : Cycler) (as : List Nat) : Cycler :=
  as.foldl (fun c a => (manageDestructor c a).1) c

theorem regAll_eq : ∀ (as : List Nat) (c : Cycler),
    regAll c as = { c with destructors := c.destructors ++ as.map Entry.plain }
  | [], c => by simp [regAll]
  | a :: t, c => by
      show regAll { c with destructors := c.destructors ++ [Entry.plain a] } t
          = _
      rw [regAll_eq t]
      simp [List.append_assoc]

/-! ### Claim theorems -/

/-- C1: for every sequence of `manageDestructor` registrations of
pairwise-distinct cleanup actions followed by one `dispose`, every registered
action is invoked exactly once, in registration order (the log is exactly the
registration sequence); afterwards the destructor count is 0, and a second
`dispose` invokes no action and leaves the count 0. -/
theorem dispose_invokes_all_once_in_order (E : Env) (hE : pureEnv E)
    (as : List Nat) (hnd : as.Nodup) (fuel : Nat)
    (hf : as.length + 1 ≤ fuel) :
    dispose E fuel (regAll Cycler.empty as) =
      Out.ok ⟨[], [], 0, as.map Ev.call⟩ () ∧
    (∀ a ∈ as, cnt (Ev.call a) (as.map Ev.call) = 1) ∧
    getDestructorsCount ⟨[], [], 0, as.map Ev.call⟩ = 0 ∧
    dispose E fuel ⟨[], [], 0, as.map Ev.call⟩ =
      Out.ok ⟨[], [], 0, as.map Ev.call⟩ () := by
  refine ⟨?_, ?_, rfl, ?_⟩
  · rw [regAll_eq]
    rw [dispose_pure hE fuel _ (by simp [Cycler.empty]; omega)]
    simp [Cycler.empty, List.map_map, Entry.ev, Function.comp]
  · intro a ha
    have hmem : Ev.call a ∈ as.map Ev.call := List.mem_map_of_mem _ ha
    have hinj : Function.Injective Ev.call := fun a b hab => by
      injection hab
    exact cnt_eq_one_of_nodup_mem (hnd.map hinj) hmem
  · rw [dispose_pure hE fuel _ (by simp; omega)]
    simp

theorem dispose_invokes_all_once_in_order_witness :
    dispose idleEnv 3 (regAll Cycler.empty [0, 1]) =
      Out.ok ⟨[], [], 0, [0, 1].map Ev.call⟩ () ∧
    (∀ a ∈ [0, 1], cnt (Ev.call a) ([0, 1].map Ev.call) = 1) ∧
    getDestructorsCount ⟨[], [], 0, [0, 1].map Ev.call⟩ = 0 ∧
    dispose idleEnv 3 ⟨[], [], 0, [0, 1].map Ev.call⟩ =
      Out.ok ⟨[], [], 0, [0, 1].map Ev.call⟩ () :=
  dispose_invokes_all_once_in_order idleEnv idleEnv_pure [0, 1] (by decide) 3
    (by decide)

/-- C7 counterexample: registering the identical action value twice yields two
queue entries, so a cleanup action can appear in `pending` more than once. -/
theorem duplicate_register_two_entries_cex :
    (manageDestructor (manageDestructor Cycler.empty 0).1 0).1.destructors =
      [Entry.plain 0, Entry.plain 0] ∧
    cnt (Entry.plain 0)
        (manageDestructor (manageDestructor Cycler.empty 0).1 0).1.destructors
      = 2 := by
  exact ⟨rfl, by decide⟩

/-- C7 amended: `manageDestructor` appends unconditionally, so every
registration of action `a` increases its multiplicity in the queue by exactly
one; a given action appears at most once only if it is registered at most
once. -/
theorem register_increments_multiplicity (c : Cycler) (a : Nat) :
    (manageDestructor c a).1.destructors = c.destructors ++ [Entry.plain a] ∧
    cnt (Entry.plain a) (manageDestructor c a).1.destructors =
      cnt (Entry.plain a) c.destructors + 1 := by
  refine ⟨rfl, ?_⟩
  simp [manageDestructor, cnt_append, cnt]

/-- C3 counterexample: when the identical action value is registered twice,
releasing the handle returned by one of the registrations twice invokes the
underlying action a second time (the second `release` finds the remaining
duplicate by `indexOf`), refuting the unconditional no-op reading. -/
theorem second_release_invokes_again_cex :
    release idleEnv 5 (Entry.plain 0)
        (manageDestructor (manageDestructor Cycler.empty 0).1 0).1 =
      Out.ok ⟨[Entry.plain 0], [], 0, [Ev.call 0]⟩ () ∧
    release idleEnv 5 (Entry.plain 0) ⟨[Entry.plain 0], [], 0, [Ev.call 0]⟩ =
      Out.ok ⟨[], [], 0, [Ev.call 0, Ev.call 0]⟩ () := by
  decide

/-- C3 amended: a successful `release` removes exactly one queue occurrence of
the entry's action — the count drops by one when the action is still pending
and the state is untouched otherwise — and, provided the action is pending at
most once (in particular whenever it was registered only once), a second
`release` of the same handle is a strict no-op that invokes nothing. -/
theorem release_exactly_once (E : Env) (hE : pureEnv E) (fuel : Nat)
    (h : Entry) (c c' : Cycler) (u : Unit)
    (hr : release E fuel h c = Out.ok c' u) :
    (if c.destructors.any (fun e => e.fnId = h.fnId) then
        getDestructorsCount c' = getDestructorsCount c - 1 ∧
        c'.log = c.log ++ [h.ev]
      else c' = c) ∧
    (c.destructors.countP (fun e => e.fnId = h.fnId) ≤ 1 →
      ∀ f', release E (f' + 1) h c' = Out.ok c' ()) := by
  have hc' := release_ok_pure hE hr
  subst hc'
  rw [releaseResult]
  cases hidx : List.findIdx? (fun e => e.fnId = h.fnId) c.destructors with
  | none =>
      have hnone := List.findIdx?_eq_none_iff.mp hidx
      have hany : c.destructors.any (fun e => e.fnId = h.fnId) = false := by
        simp only [List.any_eq_false]
        intro e he
        simpa using hnone e he
      refine ⟨by rw [if_neg (by simp [hany])], fun _ f' => ?_⟩
      simp [release, hidx]
  | some i =>
      obtain ⟨hlt, hp, -⟩ := List.findIdx?_eq_some_iff_getElem.mp hidx
      have hany : c.destructors.any (fun e => e.fnId = h.fnId) = true := by
        simp only [List.any_eq_true]
        exact ⟨c.destructors[i], by simp [List.getElem_mem], by simpa using hp⟩
      constructor
      · rw [if_pos (by simp [hany])]
        refine ⟨?_, rfl⟩
        show (c.destructors.eraseIdx i).length = c.destructors.length - 1
        exact List.length_eraseIdx_of_lt hlt
      · intro hcount f'
        have hcnt := countP_eraseIdx (fun e => e.fnId = h.fnId)
          c.destructors i hlt
        rw [List.get_eq_getElem] at hcnt
        rw [if_pos hp] at hcnt
        have hzero : (c.destructors.eraseIdx i).countP
            (fun e => e.fnId = h.fnId) = 0 := by omega
        have hnone' : List.findIdx? (fun e => e.fnId = h.fnId)
            (c.destructors.eraseIdx i) = none := by
          rw [List.findIdx?_eq_none_iff]
          intro e he
          have := List.countP_eq_zero.mp hzero e he
          simpa using this
        show release E (f' + 1) h
            { c with destructors := c.destructors.eraseIdx i,
                     log := c.log ++ [h.ev] } = _
        rw [release]
        simp [hnone']

theorem release_exactly_once_witness :
    (if ([Entry.plain 0] : List Entry).any
          (fun e => e.fnId = (Entry.plain 0).fnId) then
        getDestructorsCount (⟨[], [], 0, [Ev.call 0]⟩ : Cycler) =
          getDestructorsCount (⟨[Entry.plain 0], [], 0, []⟩ : Cycler) - 1 ∧
        (⟨[], [], 0, [Ev.call 0]⟩ : Cycler).log =
          (⟨[Entry.plain 0], [], 0, []⟩ : Cycler).log ++ [(Entry.plain 0).ev]
      else (⟨[], [], 0, [Ev.call 0]⟩ : Cycler) =
        (⟨[Entry.plain 0], [], 0, []⟩ : Cycler)) ∧
    (([Entry.plain 0] : List Entry).countP
        (fun e => e.fnId = (Entry.plain 0).fnId) ≤ 1 →
      ∀ f', release idleEnv (f' + 1) (Entry.plain 0)
          (⟨[], [], 0, [Ev.call 0]⟩ : Cycler) =
        Out.ok (⟨[], [], 0, [Ev.call 0]⟩ : Cycler) ()) :=
  release_exactly_once idleEnv idleEnv_pure 2 (Entry.plain 0)
    ⟨[Entry.plain 0], [], 0, []⟩ ⟨[], [], 0, [Ev.call 0]⟩ () (by decide)

/-- C5: `manage` dispatches by structural capability probing in the source's
fixed priority order.  The registered entry is the returned handle; running
`dispose` afterwards shows the observable effect of finalization: a
dependency exposing `dispose` has its `dispose` called (even if it also
exposes `unsubscribe`), otherwise one exposing `unsubscribe` has its
`unsubscribe` called, otherwise the dependency itself is called. -/
theorem manage_dispatch (E : Env) (hE : pureEnv E) (d : Dep) (fuel : Nat)
    (hf : 2 ≤ fuel) :
    (manage Cycler.empty d).1.destructors = [(manage Cycler.empty d).2] ∧
    dispose E fuel (manage Cycler.empty d).1 =
      Out.ok { (manage Cycler.empty d).1 with
                destructors := [],
                log := [(manage Cycler.empty d).2.ev] } () ∧
    (manage Cycler.empty d).2.ev =
      (if d.hasDispose then Ev.dispose d.id
       else if d.hasUnsubscribe then Ev.unsubscribe d.id
       else Ev.call d.id) := by
  cases hd : d.hasDispose <;> cases hu : d.hasUnsubscribe <;>
    refine ⟨by simp [manage, hd, hu, manageDisposable, manageSubscription,
        manageDestructor, Cycler.empty], ?_, by simp [manage, hd, hu,
        manageDisposable, manageSubscription, manageDestructor, Entry.ev]⟩ <;>
    · rw [dispose_pure hE fuel _ (by
        simp [manage, hd, hu, manageDisposable, manageSubscription,
          manageDestructor, Cycler.empty]
        omega)]
      simp [manage, hd, hu, manageDisposable, manageSubscription,
        manageDestructor, Cycler.empty, Entry.ev]

theorem manage_dispatch_witness :
    (manage Cycler.empty ⟨5, true, true⟩).1.destructors =
      [(manage Cycler.empty ⟨5, true, true⟩).2] ∧
    dispose idleEnv 2 (manage Cycler.empty ⟨5, true, true⟩).1 =
      Out.ok { (manage Cycler.empty ⟨5, true, true⟩).1 with
                destructors := [],
                log := [(manage Cycler.empty ⟨5, true, true⟩).2.ev] } () ∧
    (manage Cycler.empty ⟨5, true, true⟩).2.ev =
      (if (true : Bool) then Ev.dispose 5
       else if (true : Bool) then Ev.unsubscribe 5
       else Ev.call 5) :=
  manage_dispatch idleEnv idleEnv_pure ⟨5, true, true⟩ 2 (by decide)

/-- The entry `manage` registers when called from state `c` with dependency
`d` (derived description used in lemma statements). -/
def depEntry (c : Cycler) (d : Dep) : Entry :=
  if d.hasDispose then Entry.disp c.nextId d.id
  else if d.hasUnsubscribe then Entry.unsub c.nextId d.id
  else Entry.plain d.id

theorem manage_eq (c : Cycler) (d : Dep) :
    manage c d =
      ({ c with destructors := c.destructors ++ [depEntry c d],
                nextId := c.nextId +
                  (if d.hasDispose || d.hasUnsubscribe then 1 else 0) },
       depEntry c d) := by
  cases hd : d.hasDispose <;> cases hu : d.hasUnsubscribe <;>
    simp [manage, hd, hu, manageDisposable, manageSubscription,
      manageDestructor, depEntry]

/-- C4: `manageTransient` under an occupied code finalizes the previous
occupant before registering the new dependency: from an empty registry,
registering `a` then `b` under the same code leaves the log holding exactly
one invocation of `a`'s entry (invoked during the second call, before `b` was
appended — afterwards the queue holds only `b`'s entry), and the destructor
count after both calls is 1, never 2. -/
theorem transient_replaces_previous (E : Env) (hE : pureEnv E)
    (code : String) (a b : Dep) (fuel : Nat) (hf : 2 ≤ fuel) :
    ∃ c1 e1 c2 e2,
      manageTransient E fuel Cycler.empty code a = Out.ok c1 e1 ∧
      getDestructorsCount c1 = 1 ∧ c1.log = [] ∧
      manageTransient E fuel c1 code b = Out.ok c2 e2 ∧
      c2.log = [e1.ev] ∧ c2.destructors = [e2] ∧ getDestructorsCount c2 = 1 := by
  obtain ⟨f, rfl⟩ : ∃ f, fuel = f + 2 := ⟨fuel - 2, by omega⟩
  refine ⟨⟨[depEntry Cycler.empty a], [(code, depEntry Cycler.empty a)],
      (if a.hasDispose || a.hasUnsubscribe then 1 else 0), []⟩,
    depEntry Cycler.empty a,
    ⟨[depEntry ⟨[], [(code, depEntry Cycler.empty a)],
        (if a.hasDispose || a.hasUnsubscribe then 1 else 0),
        [(depEntry Cycler.empty a).ev]⟩ b],
      [(code, depEntry ⟨[], [(code, depEntry Cycler.empty a)],
        (if a.hasDispose || a.hasUnsubscribe then 1 else 0),
        [(depEntry Cycler.empty a).ev]⟩ b)],
      (if a.hasDispose || a.hasUnsubscribe then 1 else 0) +
        (if b.hasDispose || b.hasUnsubscribe then 1 else 0),
      [(depEntry Cycler.empty a).ev]⟩,
    depEntry ⟨[], [(code, depEntry Cycler.empty a)],
      (if a.hasDispose || a.hasUnsubscribe then 1 else 0),
      [(depEntry Cycler.empty a).ev]⟩ b,
    ?_, rfl, rfl, ?_, rfl, rfl, rfl⟩
  · simp [manageTransient, lookupSlot, manage_eq, Cycler.empty, setSlot]
  · have hslot : lookupSlot
        [(code, depEntry Cycler.empty a)] code
          = some (depEntry Cycler.empty a) := by
      simp [lookupSlot]
    have hidx : List.findIdx?
        (fun e => e.fnId = (depEntry Cycler.empty a).fnId)
        [depEntry Cycler.empty a] = some 0 := by
      simp [List.findIdx?]
    simp only [manageTransient, hslot, release_pure hE, releaseResult, hidx]
    simp [manage_eq, setSlot, List.eraseIdx]

theorem transient_replaces_previous_witness :
    ∃ c1 e1 c2 e2,
      manageTransient idleEnv 2 Cycler.empty "x" ⟨3, false, false⟩ =
        Out.ok c1 e1 ∧
      getDestructorsCount c1 = 1 ∧ c1.log = [] ∧
      manageTransient idleEnv 2 c1 "x" ⟨4, true, false⟩ = Out.ok c2 e2 ∧
      c2.log = [e1.ev] ∧ c2.destructors = [e2] ∧ getDestructorsCount c2 = 1 :=
  transient_replaces_previous idleEnv idleEnv_pure "x" ⟨3, false, false⟩
    ⟨4, true, false⟩ 2 (by decide)

/-- C9: a stale transient slot is tolerated.  When the slot for `code` holds a
handle whose entry is no longer anywhere in the queue (e.g. it was finalized
by a `dispose`), a later `manageTransient` under the same code releases the
stale handle as a strict no-op: the old action is not invoked again (the log
is unchanged), and the new registration increases the destructor count by
exactly one. -/
theorem stale_transient_tolerated (E : Env) (fuel : Nat) (c : Cycler)
    (code : String) (h : Entry) (d : Dep)
    (hslot : lookupSlot c.transients code = some h)
    (hstale : ∀ e ∈ c.destructors, ¬(e.fnId = h.fnId)) (hfuel : 1 ≤ fuel) :
    ∃ c' e',
      manageTransient E fuel c code d = Out.ok c' e' ∧
      c'.log = c.log ∧
      getDestructorsCount c' = getDestructorsCount c + 1 ∧
      c'.destructors = c.destructors ++ [e'] := by
  obtain ⟨f, rfl⟩ : ∃ f, fuel = f + 1 := ⟨fuel - 1, by omega⟩
  have hidx : List.findIdx? (fun e => e.fnId = h.fnId) c.destructors = none := by
    rw [List.findIdx?_eq_none_iff]
    intro e he
    simpa using hstale e he
  refine ⟨{ c with
            destructors := c.destructors ++ [depEntry c d],
            nextId := c.nextId +
              (if d.hasDispose || d.hasUnsubscribe then 1 else 0),
            transients := setSlot c.transients code (depEntry c d) },
    depEntry c d, ?_, rfl, ?_, rfl⟩
  · simp only [manageTransient, hslot, release, hidx, manage_eq]
  · show (c.destructors ++ [depEntry c d]).length = c.destructors.length + 1
    simp

theorem stale_transient_tolerated_witness :
    ∃ c' e',
      manageTransient idleEnv 1
          (⟨[], [("x", Entry.plain 3)], 0, [Ev.call 3]⟩ : Cycler) "x"
          ⟨4, false, false⟩ = Out.ok c' e' ∧
      c'.log = (⟨[], [("x", Entry.plain 3)], 0, [Ev.call 3]⟩ : Cycler).log ∧
      getDestructorsCount c' =
        getDestructorsCount
          (⟨[], [("x", Entry.plain 3)], 0, [Ev.call 3]⟩ : Cycler) + 1 ∧
      c'.destructors =
        (⟨[], [("x", Entry.plain 3)], 0, [Ev.call 3]⟩ : Cycler).destructors
          ++ [e'] :=
  stale_transient_tolerated idleEnv 1
    ⟨[], [("x", Entry.plain 3)], 0, [Ev.call 3]⟩ "x" (Entry.plain 3)
    ⟨4, false, false⟩ (by decide) (by simp) (by decide)

theorem findIdx?_append_singleton {α : Type} (p : α → Bool) :
    ∀ (l : List α) (y : α), (∀ x ∈ l, p x = false) → p y = true →
      List.findIdx? p (l ++ [y]) = some l.length
  | [], y, _, hy => by simp [List.findIdx?_cons, hy]
  | x :: t, y, hl, hy => by
      have hx : p x = false := hl x (List.mem_cons_self x t)
      have ih := findIdx?_append_singleton p t y
        (fun z hz => hl z (List.mem_cons_of_mem x hz)) hy
      simp [List.findIdx?_cons, hx, ih]

/-- A `runEntry` on a wrapper closure ignores the environment and only logs:
the `unsubscribe` wrapper case. -/
theorem runEntry_unsub (E : Env) (f : Nat) (n o : Nat) (c : Cycler) :
    runEntry E (f + 1) (Entry.unsub n o) c =
      Out.ok { c with log := c.log ++ [Ev.unsubscribe o] } () := rfl

/-- C6 counterexample: a stream that completes synchronously during the
subscribe call.  The `finalize` callback runs while `disposable` is still
`null`, so it does nothing, and the queue entry appended right afterwards is
never auto-released: the destructor count after `managedSubscribe` is one
greater than before the call (not equal to it), and no completion hook
remains armed that could ever remove it. -/
theorem sync_complete_entry_lingers_cex :
    managedSubscribe Cycler.empty 7 true =
      (⟨[Entry.unsub 0 7], [], 1, []⟩, Entry.unsub 0 7, none) ∧
    getDestructorsCount (managedSubscribe Cycler.empty 7 true).1 =
      getDestructorsCount Cycler.empty + 1 := by
  decide

/-- C6 amended: for a stream that terminates only after the subscribe call
has returned, `managedSubscribe` appends one queue entry and leaves the
completion hook armed on the returned handle; when the stream later
terminates, the hook's `release` removes exactly that entry, so the
destructor queue — and with it `getDestructorsCount` — returns to its
pre-subscribe value. -/
theorem async_terminate_auto_release (E : Env) (c : Cycler) (subId : Nat)
    (fuel : Nat) (hf : 2 ≤ fuel)
    (hfresh : ∀ e ∈ c.destructors, e.fnId ≠ Sum.inr c.nextId) :
    ∃ c1 h,
      managedSubscribe c subId false = (c1, h, some h) ∧
      getDestructorsCount c1 = getDestructorsCount c + 1 ∧
      release E fuel h c1 =
        Out.ok { c1 with destructors := c.destructors,
                         log := c1.log ++ [Ev.unsubscribe subId] } () := by
  obtain ⟨g, rfl⟩ : ∃ g, fuel = g + 2 := ⟨fuel - 2, by omega⟩
  refine ⟨{ c with
            destructors := c.destructors ++ [Entry.unsub c.nextId subId],
            nextId := c.nextId + 1 },
    Entry.unsub c.nextId subId, rfl, by simp [getDestructorsCount], ?_⟩
  have hidx : List.findIdx?
      (fun e => e.fnId = (Entry.unsub c.nextId subId).fnId)
      (c.destructors ++ [Entry.unsub c.nextId subId]) =
        some c.destructors.length := by
    refine findIdx?_append_singleton _ c.destructors _ ?_ (by simp)
    intro x hx
    simpa [Entry.fnId] using hfresh x hx
  simp only [release, hidx, runEntry_unsub]
  simp [eraseIdx_append_singleton]

theorem async_terminate_auto_release_witness :
    (∀ e ∈ (Cycler.empty).destructors, e.fnId ≠ Sum.inr (Cycler.empty).nextId)
    ∧ ∃ c1 h,
      managedSubscribe Cycler.empty 7 false = (c1, h, some h) ∧
      getDestructorsCount c1 = getDestructorsCount Cycler.empty + 1 ∧
      release idleEnv 2 h c1 =
        Out.ok { c1 with destructors := (Cycler.empty).destructors,
                         log := c1.log ++ [Ev.unsubscribe 7] } () :=
  ⟨by simp [Cycler.empty],
    async_terminate_auto_release idleEnv Cycler.empty 7 2 (by decide)
      (by simp [Cycler.empty])⟩

/-! ### The transient slots as a frame for the queue operations -/

/-- The outcome `r` leaves the transient slots of the starting state `c`
untouched (trivially so on fuel exhaustion). -/
def transPreserved {α : Type} (c : Cycler) : Out α → Prop
  | .ok c' _ => c'.transients = c.transients
  | .thrown c' => c'.transients = c.transients
  | .fuelOut => True

/-- Replace the transient slots wholesale (used to state that the queue
operations never read them). -/
def Cycler.withT (c : Cycler) (t : List (String × Entry)) : Cycler :=
  { c with transients := t }

/-- Map `Cycler.withT` over an outcome. -/
def Out.withT {α : Type} (t : List (String × Entry)) : Out α → Out α
  | .ok c a => .ok (c.withT t) a
  | .thrown c => .thrown (c.withT t)
  | .fuelOut => .fuelOut

theorem runEntry_transPreserved (E : Env) :
    ∀ f : Nat,
      (∀ e c, transPreserved c (runEntry E f e c)) ∧
      (∀ hs c, transPreserved c (releaseList E f hs c)) ∧
      (∀ h c, transPreserved c (release E f h c)) := by
  intro f
  induction f with
  | zero =>
      refine ⟨fun e c => by simp [runEntry, transPreserved],
        fun hs c => ?_, fun h c => by simp [release, transPreserved]⟩
      cases hs with
      | nil => simp [releaseList, transPreserved]
      | cons h t => simp [releaseList, transPreserved]
  | succ f ih =>
      obtain ⟨ihr, ihl, ihrel⟩ := ih
      refine ⟨fun e c => ?_, fun hs c => ?_, fun h c => ?_⟩
      · cases e with
        | plain a =>
            have hl := ihl (E.releases a) { c with log := c.log ++ [Ev.call a] }
            simp only [runEntry]
            cases hrl : releaseList E f (E.releases a)
                { c with log := c.log ++ [Ev.call a] } with
            | ok c2 u =>
                rw [hrl] at hl
                cases ht : E.throws a <;> simpa [transPreserved, ht] using hl
            | thrown c2 =>
                rw [hrl] at hl
                simpa [transPreserved] using hl
            | fuelOut => simp [transPreserved]
        | disp n o => simp [runEntry, transPreserved]
        | unsub n o => simp [runEntry, transPreserved]
      · cases hs with
        | nil => simp [releaseList, transPreserved]
        | cons h t =>
            have hr := ihrel h c
            simp only [releaseList]
            cases hre : release E f h c with
            | ok c1 u =>
                rw [hre] at hr
                have hl2 := ihl t c1
                show transPreserved c (releaseList E f t c1)
                cases hrl2 : releaseList E f t c1 with
                | ok c2 u2 =>
                    rw [hrl2] at hl2
                    simp only [transPreserved] at hr hl2 ⊢
                    exact hl2.trans hr
                | thrown c2 =>
                    rw [hrl2] at hl2
                    simp only [transPreserved] at hr hl2 ⊢
                    exact hl2.trans hr
                | fuelOut => simp [transPreserved]
            | thrown c1 =>
                rw [hre] at hr
                simpa [transPreserved] using hr
            | fuelOut => simp [transPreserved]
      · simp only [release]
        cases hidx : List.findIdx? (fun e => e.fnId = h.fnId)
            c.destructors with
        | some i =>
            have hr := ihr h c
            cases hre : runEntry E f h c with
            | ok c1 u =>
                rw [hre] at hr
                simpa [transPreserved] using hr
            | thrown c1 =>
                rw [hre] at hr
                simpa [transPreserved] using hr
            | fuelOut => simp [transPreserved]
        | none => simp [transPreserved]

theorem disposeLoop_transPreserved (E : Env) :
    ∀ (f i : Nat) (c : Cycler), transPreserved c (disposeLoop E f i c) := by
  intro f
  induction f with
  | zero => intro i c; simp [disposeLoop, transPreserved]
  | succ f ih =>
      intro i c
      simp only [disposeLoop]
      by_cases hlt : i < c.destructors.length
      · rw [dif_pos hlt]
        have hr := (runEntry_transPreserved E f).1
          (c.destructors.get ⟨i, hlt⟩) c
        cases hre : runEntry E f (c.destructors.get ⟨i, hlt⟩) c with
        | ok c1 u =>
            rw [hre] at hr
            have h2 := ih (i + 1) c1
            show transPreserved c (disposeLoop E f (i + 1) c1)
            cases hdl : disposeLoop E f (i + 1) c1 with
            | ok c2 u2 =>
                rw [hdl] at h2
                simp only [transPreserved] at hr h2 ⊢
                exact h2.trans hr
            | thrown c2 =>
                rw [hdl] at h2
                simp only [transPreserved] at hr h2 ⊢
                exact h2.trans hr
            | fuelOut => simp [transPreserved]
        | thrown c1 =>
            rw [hre] at hr
            simpa [transPreserved] using hr
        | fuelOut => simp [transPreserved]
      · rw [dif_neg hlt]
        simp [transPreserved]

theorem runEntry_withT (E : Env) (t : List (String × Entry)) :
    ∀ f : Nat,
      (∀ e c, runEntry E f e (c.withT t) = Out.withT t (runEntry E f e c)) ∧
      (∀ hs c, releaseList E f hs (c.withT t) =
        Out.withT t (releaseList E f hs c)) ∧
      (∀ h c, release E f h (c.withT t) = Out.withT t (release E f h c)) := by
  intro f
  induction f with
  | zero =>
      refine ⟨fun e c => by simp [runEntry, Out.withT],
        fun hs c => ?_, fun h c => by simp [release, Out.withT]⟩
      cases hs with
      | nil => simp [releaseList, Out.withT, Cycler.withT]
      | cons h tl => simp [releaseList, Out.withT]
  | succ f ih =>
      obtain ⟨ihr, ihl, ihrel⟩ := ih
      refine ⟨fun e c => ?_, fun hs c => ?_, fun h c => ?_⟩
      · cases e with
        | plain a =>
            simp only [runEntry]
            have : ({ c.withT t with log := (c.withT t).log ++ [Ev.call a] })
                = ({ c with log := c.log ++ [Ev.call a] }).withT t := rfl
            rw [this, ihl (E.releases a) { c with log := c.log ++ [Ev.call a] }]
            cases hrl : releaseList E f (E.releases a)
                { c with log := c.log ++ [Ev.call a] } with
            | ok c2 u => cases ht : E.throws a <;> simp [Out.withT, ht]
            | thrown c2 => simp [Out.withT]
            | fuelOut => simp [Out.withT]
        | disp n o => simp [runEntry, Out.withT, Cycler.withT]
        | unsub n o => simp [runEntry, Out.withT, Cycler.withT]
      · cases hs with
        | nil => simp [releaseList, Out.withT]
        | cons h tl =>
            simp only [releaseList]
            rw [ihrel h c]
            cases hre : release E f h c with
            | ok c1 u => simp [Out.withT, ihl tl c1]
            | thrown c1 => simp [Out.withT]
            | fuelOut => simp [Out.withT]
      · simp only [release]
        have hd : (c.withT t).destructors = c.destructors := rfl
        rw [hd, ihr h c]
        cases hidx : List.findIdx? (fun e => e.fnId = h.fnId)
            c.destructors with
        | some i =>
            cases hre : runEntry E f h c with
            | ok c1 u => simp [Out.withT, Cycler.withT]
            | thrown c1 => simp [Out.withT]
            | fuelOut => simp [Out.withT]
        | none => simp [Out.withT]

theorem disposeLoop_withT (E : Env) (t : List (String × Entry)) :
    ∀ (f i : Nat) (c : Cycler),
      disposeLoop E f i (c.withT t) = Out.withT t (disposeLoop E f i c) := by
  intro f
  induction f with
  | zero => intro i c; simp [disposeLoop, Out.withT]
  | succ f ih =>
      intro i c
      simp only [disposeLoop]
      have hd : (c.withT t).destructors = c.destructors := rfl
      rw [hd]
      by_cases hlt : i < c.destructors.length
      · rw [dif_pos hlt, dif_pos hlt,
          (runEntry_withT E t f).1 (c.destructors.get ⟨i, hlt⟩) c]
        cases hre : runEntry E f (c.destructors.get ⟨i, hlt⟩) c with
        | ok c1 u => simp [Out.withT, ih (i + 1) c1]
        | thrown c1 => simp [Out.withT]
        | fuelOut => simp [Out.withT]
      · rw [dif_neg hlt, dif_neg hlt]
        simp [Out.withT]

/-- C8: `dispose` is a frame for the transient slots: it leaves
`transients` unchanged in every outcome (stale references remain), and its
entire behaviour is independent of the transient-slot contents — replacing
the slots by any `t` before the call just replaces them in the result. -/
theorem dispose_transients_frame (E : Env) (fuel : Nat) (c : Cycler)
    (t : List (String × Entry)) :
    transPreserved c (dispose E fuel c) ∧
    dispose E fuel (c.withT t) = Out.withT t (dispose E fuel c) := by
  constructor
  · have hdl := disposeLoop_transPreserved E fuel 0 c
    rw [dispose]
    cases h : disposeLoop E fuel 0 c with
    | ok c1 u => rw [h] at hdl; simpa [transPreserved] using hdl
    | thrown c1 => rw [h] at hdl; simpa [transPreserved] using hdl
    | fuelOut => simp [transPreserved]
  · rw [dispose, dispose, disposeLoop_withT E t fuel 0 c]
    cases h : disposeLoop E fuel 0 c with
    | ok c1 u => simp [Out.withT, Cycler.withT]
    | thrown c1 => simp [Out.withT]
    | fuelOut => simp [Out.withT]

/-! ### Behaviour when a cleanup action throws -/

theorem fnId_inl {e : Entry} {a : Nat} (h : e.fnId = Sum.inl a) :
    e = Entry.plain a := by
  cases e <;> simp [Entry.fnId] at h <;> simp [h]

theorem runEntry_noReentry {E : Env} (hE : noReentry E) (f : Nat) (e : Entry)
    (c : Cycler) :
    runEntry E (f + 1) e c =
      (if e.doesThrow E then Out.thrown { c with log := c.log ++ [e.ev] }
       else Out.ok { c with log := c.log ++ [e.ev] } ()) := by
  cases e with
  | plain a =>
      cases ht : E.throws a <;>
        simp [runEntry, releaseList, hE a, ht, Entry.ev, Entry.doesThrow]
  | disp n o => simp [runEntry, Entry.ev, Entry.doesThrow]
  | unsub n o => simp [runEntry, Entry.ev, Entry.doesThrow]

theorem disposeLoop_throw {E : Env} (hE : noReentry E) :
    ∀ (l1 : List Entry) (f i : Nat) (c : Cycler) (et : Entry)
      (l2 : List Entry),
      c.destructors.drop i = l1 ++ et :: l2 →
      (∀ e ∈ l1, e.doesThrow E = false) →
      et.doesThrow E = true →
      l1.length + 2 ≤ f →
      disposeLoop E f i c =
        Out.thrown { c with log := c.log ++ l1.map Entry.ev ++ [et.ev] }
  | [], f, i, c, et, l2, hq, _, ht, hf => by
      have hlt : i < c.destructors.length := by
        by_contra hge
        rw [List.drop_eq_nil_of_le (by omega)] at hq
        simp at hq
      have hd := List.drop_eq_getElem_cons (l := c.destructors) hlt
      rw [hq] at hd
      simp only [List.nil_append] at hd
      injection hd with hd1 hd2
      have hget : c.destructors.get ⟨i, hlt⟩ = et := by
        simp [List.get_eq_getElem, ← hd1]
      obtain ⟨g, rfl⟩ : ∃ g, f = g + 2 := ⟨f - 2, by omega⟩
      rw [disposeLoop, dif_pos hlt, hget, runEntry_noReentry hE, if_pos ht]
      simp
  | e0 :: l1', f, i, c, et, l2, hq, h1, ht, hf => by
      have hlt : i < c.destructors.length := by
        by_contra hge
        rw [List.drop_eq_nil_of_le (by omega)] at hq
        simp at hq
      have hd := List.drop_eq_getElem_cons (l := c.destructors) hlt
      rw [hq] at hd
      simp only [List.cons_append] at hd
      injection hd with hd1 hd2
      have hget : c.destructors.get ⟨i, hlt⟩ = e0 := by
        simp [List.get_eq_getElem, ← hd1]
      obtain ⟨g, rfl⟩ : ∃ g, f = g + 1 := ⟨f - 1, by omega⟩
      rw [disposeLoop, dif_pos hlt, hget]
      obtain ⟨g', rfl⟩ : ∃ g', g = g' + 1 := ⟨g - 1, by omega⟩
      rw [runEntry_noReentry hE, if_neg (by simp [h1 e0 (by simp)])]
      show disposeLoop E (g' + 1) (i + 1)
          { c with log := c.log ++ [e0.ev] } = _
      rw [disposeLoop_throw hE l1' (g' + 1) (i + 1)
          { c with log := c.log ++ [e0.ev] } et l2 (by simpa using hd2.symm)
          (fun e he => h1 e (by simp [he])) ht (by simp at hf ⊢; omega)]
      simp [List.append_assoc]

theorem dispose_throw {E : Env} (hE : noReentry E) (c : Cycler)
    (l1 : List Entry) (et : Entry) (l2 : List Entry)
    (hq : c.destructors = l1 ++ et :: l2)
    (h1 : ∀ e ∈ l1, e.doesThrow E = false) (ht : et.doesThrow E = true)
    (fuel : Nat) (hf : l1.length + 2 ≤ fuel) :
    dispose E fuel c =
      Out.thrown { c with log := c.log ++ l1.map Entry.ev ++ [et.ev] } := by
  have hdl := disposeLoop_throw hE l1 fuel 0 c et l2 (by simpa using hq)
    h1 ht hf
  rw [dispose, hdl]

/-- C10: `dispose` is not atomic when a cleanup action raises.  If the
queue is `l1 ++ et :: l2` where every action in `l1` runs normally and `et`
throws, `dispose` invokes all of `l1` (and `et`), the exception skips the
queue-clearing assignment so the queue still holds every entry, and a second
`dispose` invokes the already-invoked actions of `l1` a second time. -/
theorem dispose_throw_not_atomic (E : Env) (hE : noReentry E) (c : Cycler)
    (l1 : List Entry) (et : Entry) (l2 : List Entry)
    (hq : c.destructors = l1 ++ et :: l2)
    (h1 : ∀ e ∈ l1, e.doesThrow E = false) (ht : et.doesThrow E = true)
    (fuel : Nat) (hf : l1.length + 2 ≤ fuel) :
    ∃ c',
      dispose E fuel c = Out.thrown c' ∧
      c'.destructors = c.destructors ∧
      c'.log = c.log ++ l1.map Entry.ev ++ [et.ev] ∧
      dispose E fuel c' =
        Out.thrown { c' with log := c'.log ++ l1.map Entry.ev ++ [et.ev] } := by
  refine ⟨{ c with log := c.log ++ l1.map Entry.ev ++ [et.ev] },
    dispose_throw hE c l1 et l2 hq h1 ht fuel hf, rfl, rfl, ?_⟩
  exact dispose_throw hE { c with log := c.log ++ l1.map Entry.ev ++ [et.ev] }
    l1 et l2 hq h1 ht fuel hf

/-- An environment where only action 1 throws; no action reenters the
registry. -/
def throwOneEnv : Env := ⟨fun _ => [], fun a => a = 1⟩

theorem throwOneEnv_noReentry : noReentry throwOneEnv := fun _ => rfl

theorem dispose_throw_not_atomic_witness :
    ∃ c',
      dispose throwOneEnv 4
          (⟨[Entry.plain 0, Entry.plain 1, Entry.plain 2], [], 0, []⟩
            : Cycler) = Out.thrown c' ∧
      c'.destructors =
        (⟨[Entry.plain 0, Entry.plain 1, Entry.plain 2], [], 0, []⟩
          : Cycler).destructors ∧
      c'.log = (⟨[Entry.plain 0, Entry.plain 1, Entry.plain 2], [], 0, []⟩
          : Cycler).log ++ [Entry.plain 0].map Entry.ev ++ [(Entry.plain 1).ev] ∧
      dispose throwOneEnv 4 c' =
        Out.thrown { c' with log :=
          c'.log ++ [Entry.plain 0].map Entry.ev ++ [(Entry.plain 1).ev] } :=
  dispose_throw_not_atomic throwOneEnv throwOneEnv_noReentry
    ⟨[Entry.plain 0, Entry.plain 1, Entry.plain 2], [], 0, []⟩
    [Entry.plain 0] (Entry.plain 1) [Entry.plain 2] rfl (by decide)
    (by decide) 4 (by decide)

/-! ### At-most-once invocation across top-level interleavings -/

/-- The top-level operations a client can interleave on one registry:
registering a destructor, calling `dispose` on a returned handle, and the
finalize-all `dispose`. -/
inductive Op : Type
  | register (a : Nat)
  | release (h : Entry)
  | disposeAll
deriving DecidableEq, Repr

/-- Run one top-level operation. -/
def runOp (E : Env) (fuel : Nat) (c : Cycler) : Op → Out Unit
  | .register a => Out.ok (manageDestructor c a).1 ()
  | .release h => release E fuel h c
  | .disposeAll => dispose E fuel c

/-- Run a sequence of top-level operations, stopping when an exception
propagates or fuel runs out. -/
def runOps (E : Env) (fuel : Nat) : List Op → Cycler → Out Unit
  | [], c => Out.ok c ()
  | op :: t, c =>
      match runOp E fuel c op with
      | Out.ok c1 _ => runOps E fuel t c1
      | Out.thrown c1 => Out.thrown c1
      | Out.fuelOut => Out.fuelOut

/-- How many times an operation registers the user action `a`. -/
def regCount (a : Nat) : Op → Nat
  | .register a' => if a' = a then 1 else 0
  | .release _ => 0
  | .disposeAll => 0

/-- Recorded invocations of action `a` plus its multiplicity in the queue:
the potential that bounds how often `a` can still be invoked. -/
def phi (a : Nat) (c : Cycler) : Nat :=
  cnt (Ev.call a) c.log + cnt (Entry.plain a) c.destructors

theorem cnt_call_map_ev (a : Nat) : ∀ (q : List Entry),
    cnt (Ev.call a) (q.map Entry.ev) = cnt (Entry.plain a) q
  | [] => rfl
  | e :: t => by
      have ih := cnt_call_map_ev a t
      cases e <;> simp [cnt, List.countP_cons, Entry.ev] at ih ⊢ <;> omega

theorem runOp_phi {E : Env} (hE : pureEnv E) (fuel : Nat) (a : Nat) (op : Op)
    (c c' : Cycler) (u : Unit) (hr : runOp E fuel c op = Out.ok c' u) :
    phi a c' ≤ phi a c + regCount a op := by
  cases op with
  | register a' =>
      simp only [runOp] at hr
      injection hr with h1 _
      subst h1
      by_cases haa : a' = a <;>
        simp [phi, manageDestructor, cnt_append, cnt, regCount, haa] <;>
        omega
  | release h =>
      have hc' := release_ok_pure hE hr
      subst hc'
      rw [releaseResult]
      cases hidx : List.findIdx? (fun e => e.fnId = h.fnId)
          c.destructors with
      | none => simp [regCount]
      | some i =>
          obtain ⟨hlt, hp, -⟩ := List.findIdx?_eq_some_iff_getElem.mp hidx
          have herase := cnt_eraseIdx (Entry.plain a) c.destructors i hlt
          by_cases hha : h = Entry.plain a
          · subst hha
            have hci : c.destructors.get ⟨i, hlt⟩ = Entry.plain a := by
              apply fnId_inl
              rw [List.get_eq_getElem]
              simpa [Entry.fnId] using hp
            rw [hci] at herase
            simp at herase
            simp only [phi, regCount, cnt_append, Entry.ev]
            have hone : cnt (Ev.call a) [Ev.call a] = 1 := by simp [cnt]
            omega
          · have hev : cnt (Ev.call a) [h.ev] = 0 := by
              cases h with
              | plain b =>
                  have hba : ¬(b = a) := fun hba => hha (by rw [hba])
                  simp [cnt, Entry.ev, hba]
              | disp n o => simp [cnt, Entry.ev]
              | unsub n o => simp [cnt, Entry.ev]
            simp only [phi, regCount, cnt_append]
            rw [hev]
            omega
  | disposeAll =>
      have hc' := dispose_ok_pure hE hr
      subst hc'
      simp only [phi, regCount, cnt_append, cnt_call_map_ev]
      simp [cnt]

theorem runOps_phi {E : Env} (hE : pureEnv E) (fuel : Nat) (a : Nat) :
    ∀ (ops : List Op) (c c' : Cycler) (u : Unit),
      runOps E fuel ops c = Out.ok c' u →
      phi a c' ≤ phi a c + (ops.map (regCount a)).sum
  | [], c, c', u, hr => by
      injection hr with h1 _
      subst h1
      simp
  | op :: t, c, c', u, hr => by
      simp only [runOps] at hr
      cases hro : runOp E fuel c op with
      | ok c1 u1 =>
          rw [hro] at hr
          have h1 := runOp_phi hE fuel a op c c1 u1 hro
          have h2 := runOps_phi hE fuel a t c1 c' u hr
          simp only [List.map_cons, List.sum_cons]
          omega
      | thrown c1 => rw [hro] at hr; simp at hr
      | fuelOut => rw [hro] at hr; simp at hr

/-- C2 amended: with cleanup actions that perform no registry operations of
their own (no reentrant release) and do not throw, an action registered once
is invoked at most once, for every interleaving and multiplicity of
`release` and `dispose` calls.  (The unrestricted claim fails: a release
issued from within another cleanup action while `dispose` drains the queue
can re-invoke an already-invoked action, see the counterexample.) -/
theorem action_invoked_at_most_once (E : Env) (hE : pureEnv E) (fuel : Nat)
    (ops : List Op) (a : Nat) (hreg : (ops.map (regCount a)).sum = 1)
    (c' : Cycler) (u : Unit)
    (hrun : runOps E fuel ops Cycler.empty = Out.ok c' u) :
    cnt (Ev.call a) c'.log ≤ 1 := by
  have h := runOps_phi hE fuel a ops Cycler.empty c' u hrun
  rw [hreg] at h
  have h0 : phi a Cycler.empty = 0 := rfl
  rw [h0] at h
  simp only [phi] at h
  omega

theorem action_invoked_at_most_once_witness :
    (([Op.register 5, Op.disposeAll].map (regCount 5)).sum = 1) ∧
    runOps idleEnv 3 [Op.register 5, Op.disposeAll] Cycler.empty =
      Out.ok ⟨[], [], 0, [Ev.call 5]⟩ () ∧
    cnt (Ev.call 5) (⟨[], [], 0, [Ev.call 5]⟩ : Cycler).log ≤ 1 :=
  ⟨by decide, by decide,
    action_invoked_at_most_once idleEnv idleEnv_pure 3
      [Op.register 5, Op.disposeAll] 5 (by decide)
      ⟨[], [], 0, [Ev.call 5]⟩ () (by decide)⟩

/-- An environment where action 1's body calls `release` on action 0's
handle (a reentrant release); nothing throws. -/
def reentryEnv : Env :=
  ⟨fun a => if a = 1 then [Entry.plain 0] else [], fun _ => false⟩

/-- C2 counterexample: action 0 is registered exactly once, yet it is invoked
twice.  Action 1's body releases action 0's handle while `dispose` is
draining the queue; since `dispose` clears the array only after its loop, the
reentrant release still finds action 0 in the queue (already invoked by the
loop) and invokes it again: the final log is `[call 0, call 1, call 0]`. -/
theorem reentrant_release_double_invoke_cex :
    (([Op.register 0, Op.register 1, Op.disposeAll].map (regCount 0)).sum
      = 1) ∧
    runOps reentryEnv 10 [Op.register 0, Op.register 1, Op.disposeAll]
        Cycler.empty =
      Out.ok ⟨[], [], 0, [Ev.call 0, Ev.call 1, Ev.call 0]⟩ () ∧
    cnt (Ev.call 0)
        (⟨[], [], 0, [Ev.call 0, Ev.call 1, Ev.call 0]⟩ : Cycler).log = 2 := by
  decide

end NgCycler
